import Mathlib

/-!
Verification of `experiments/histo-seg/inference.py` (histocartography).

Shallow embedding: tensors are (nested) lists over `ℚ` (model scores) or
`Nat` (class labels and indices); `torch.argmax` / `np.argmax` over one
axis is `argmaxList` (first index of the maximum); error raising is an
`Except` value; the torchio grid sampler / aggregator, which the source
delegates to, is modelled from the spec where indicated.
-/

set_option autoImplicit false

universe u v

/-- First index of the maximal element: fold tracking the current best
value `bv` and its index `best`, with `i` the index of the head of the
remaining list.  Matches `torch.argmax`, which returns the first maximal
index (later equal values do not replace the current best). -/
def argmaxAux {α : Type u} [LinearOrder α] : List α → Nat → α → Nat → Nat
  | [], _, _, best => best
  | x :: xs, i, bv, best =>
    if bv < x then argmaxAux xs (i + 1) x i else argmaxAux xs (i + 1) bv best

/-- Model of `torch.argmax` over a 1-D tensor; `0` on the empty list (torch errors
there, callers never pass it). -/
def argmaxList {α : Type u} [LinearOrder α] : List α → Nat
  | [] => 0
  | x :: xs => argmaxAux xs 1 x 0

/-- Model of `np.where(preds == label)` over a 1-D array: the indices whose entry
equals `label`. -/
def whereEq (preds : List Nat) (label : Nat) : List Nat :=
  (List.range preds.length).filter (fun i => preds.getD i 0 == label)

/-- Model of `get_segmentation_map(node_logits, superpixels, NR_CLASSES)` from
`inference.py`: per-node predictions by row-wise argmax, then for each
class `label` the map `np.isin(superpixels, spx_indices) * label`, and the
elementwise sum of the stacked per-class maps.  `superpixels` is the
flattened label image. -/
def get_segmentation_map (node_logits : List (List ℚ)) (superpixels : List Nat)
    (NR_CLASSES : Nat) : List Nat :=
  let node_predictions := node_logits.map argmaxList
  let all_maps := (List.range NR_CLASSES).map (fun label =>
    superpixels.map (fun s => if s ∈ whereEq node_predictions label then label else 0))
  (List.range superpixels.length).map (fun j =>
    (all_maps.map (fun m => m.getD j 0)).sum)

lemma mem_whereEq {preds : List Nat} {label s : Nat} :
    s ∈ whereEq preds label ↔ s < preds.length ∧ preds.getD s 0 = label := by
  simp [whereEq, List.mem_filter, List.mem_range]

lemma getD_map_of_lt {α : Type u} {β : Type v} (f : α → β) (l : List α) (j : Nat)
    (hj : j < l.length) (d : β) (d' : α) : (l.map f).getD j d = f (l.getD j d') := by
  induction l generalizing j with
  | nil => exact absurd hj (Nat.not_lt_zero j)
  | cons x xs ih =>
    cases j with
    | zero => rfl
    | succ j => exact ih j (Nat.lt_of_succ_lt_succ hj)

lemma getD_range (n j : Nat) (h : j < n) : (List.range n).getD j 0 = j := by
  have hjr : j < (List.range n).length := by simpa using h
  rw [List.getD_eq_getElem _ _ hjr]
  simp

/-- Summing `if label = p then label else 0` over `label < NR` picks out
`p` exactly when `p < NR`. -/
lemma sum_range_ite (NR p : Nat) :
    ((List.range NR).map (fun label => if label = p then label else 0)).sum
      = if p < NR then p else 0 := by
  induction NR with
  | zero => simp
  | succ n ih =>
    rw [List.range_succ, List.map_append, List.sum_append, ih]
    by_cases hp : p = n
    · subst hp
      simp [Nat.lt_irrefl, Nat.lt_succ_self]
    · have : (if p < n + 1 then p else 0) = (if p < n then p else 0) := by
        by_cases h : p < n
        · simp [h, Nat.lt_succ_of_lt h]
        · have : ¬ p < n + 1 := by omega
          simp [h, this]
      simp [hp, Ne.symm hp, this]

/-- Value of `get_segmentation_map` at pixel `j`: with `s` the superpixel
id there and `preds` the per-node argmax vector, the pixel gets
`preds[s]` when `s` is a valid node index predicting a class `< NR`, and
`0` otherwise. -/
lemma get_segmentation_map_getD (node_logits : List (List ℚ)) (superpixels : List Nat)
    (NR : Nat) (j : Nat) (hj : j < superpixels.length) :
    (get_segmentation_map node_logits superpixels NR).getD j 0 =
      (let preds := node_logits.map argmaxList
       let s := superpixels.getD j 0
       if _hs : s < preds.length then
         (if preds.getD s 0 < NR then preds.getD s 0 else 0)
       else 0) := by
  classical
  unfold get_segmentation_map
  simp only []
  set preds := node_logits.map argmaxList with hpreds
  set s := superpixels.getD j 0 with hs
  rw [getD_map_of_lt _ _ j (by simpa using hj) 0 0, getD_range _ _ hj]
  rw [List.map_map]
  have hmap : ∀ label : Nat,
      ((superpixels.map fun t => if t ∈ whereEq preds label then label else 0).getD j 0)
        = (if s ∈ whereEq preds label then label else 0) := by
    intro label
    exact getD_map_of_lt _ _ j hj 0 0
  have hcomp :
      ((List.range NR).map
        ((fun m => m.getD j 0) ∘ fun label =>
          superpixels.map fun t => if t ∈ whereEq preds label then label else 0))
      = (List.range NR).map (fun label => if s ∈ whereEq preds label then label else 0) := by
    apply List.map_congr_left
    intro label _
    exact hmap label
  rw [hcomp]
  by_cases hvalid : s < preds.length
  · have hmem : ∀ label : Nat, (s ∈ whereEq preds label) ↔ (label = preds.getD s 0) := by
      intro label
      rw [mem_whereEq]
      constructor
      · rintro ⟨_, h⟩; exact h.symm
      · intro h; exact ⟨hvalid, h.symm⟩
    have hrw : ((List.range NR).map (fun label => if s ∈ whereEq preds label then label else 0))
        = (List.range NR).map (fun label => if label = preds.getD s 0 then label else 0) := by
      apply List.map_congr_left
      intro label _
      rw [if_congr (hmem label) rfl rfl]
    rw [hrw, sum_range_ite]
    simp [hvalid]
  · have hmem : ∀ label : Nat, s ∉ whereEq preds label := by
      intro label hmemb
      exact hvalid (mem_whereEq.mp hmemb).1
    have hrw : ((List.range NR).map (fun label => if s ∈ whereEq preds label then label else 0))
        = (List.range NR).map (fun _ => (0 : Nat)) := by
      apply List.map_congr_left
      intro label _
      simp [hmem label]
    rw [hrw]
    simp [hvalid]

lemma argmaxAux_lt {α : Type u} [LinearOrder α] :
    ∀ (xs : List α) (i : Nat) (bv : α) (best : Nat), best < i →
      argmaxAux xs i bv best < i + xs.length := by
  intro xs
  induction xs with
  | nil => intro i bv best h; simpa [argmaxAux] using h
  | cons x xs ih =>
    intro i bv best h
    simp only [argmaxAux]
    by_cases hc : bv < x
    · rw [if_pos hc]
      have := ih (i + 1) x i (Nat.lt_succ_self i)
      simp only [List.length_cons]
      omega
    · rw [if_neg hc]
      have := ih (i + 1) bv best (Nat.lt_succ_of_lt h)
      simp only [List.length_cons]
      omega

lemma argmaxList_lt {α : Type u} [LinearOrder α] (l : List α) (h : l ≠ []) :
    argmaxList l < l.length := by
  cases l with
  | nil => exact absurd rfl h
  | cons x xs =>
    have := argmaxAux_lt xs 1 x 0 Nat.zero_lt_one
    simpa [argmaxList, Nat.add_comm] using this

/-- C1: with every superpixel id a valid node index and every logit row of
length `NR_CLASSES` (nonempty), the per-class isin/sum loop of
`get_segmentation_map` equals the direct gather
`node_predictions[superpixels]`; in particular the output has the shape of
the superpixel map. -/
theorem get_segmentation_map_eq_gather (node_logits : List (List ℚ))
    (superpixels : List Nat) (NR : Nat) (hNR : 0 < NR)
    (hrow : ∀ row ∈ node_logits, row.length = NR)
    (hvalid : ∀ s ∈ superpixels, s < node_logits.length) :
    get_segmentation_map node_logits superpixels NR =
      superpixels.map (fun s => (node_logits.map argmaxList).getD s 0) := by
  apply List.ext_getElem
  · simp [get_segmentation_map]
  · intro j h1 h2
    have hj : j < superpixels.length := by simpa using h2
    rw [← List.getD_eq_getElem _ 0 h1, ← List.getD_eq_getElem _ 0 h2]
    rw [get_segmentation_map_getD node_logits superpixels NR j hj]
    rw [getD_map_of_lt _ _ j hj 0 0]
    simp only []
    set s := superpixels.getD j 0 with hsdef
    have hsmem : s ∈ superpixels := by
      rw [hsdef, List.getD_eq_getElem _ 0 hj]
      exact List.getElem_mem hj
    have hslt : s < node_logits.length := hvalid s hsmem
    have hslt' : s < (node_logits.map argmaxList).length := by simpa using hslt
    rw [dif_pos hslt']
    have hrowval : (node_logits.map argmaxList).getD s 0
        = argmaxList (node_logits.getD s []) := getD_map_of_lt _ _ s hslt 0 []
    have hrmem : node_logits.getD s [] ∈ node_logits := by
      rw [List.getD_eq_getElem _ [] hslt]
      exact List.getElem_mem hslt
    have hlen : (node_logits.getD s []).length = NR := hrow _ hrmem
    have hne : node_logits.getD s [] ≠ [] := by
      intro hnil
      rw [hnil] at hlen
      simp at hlen
      omega
    have hbound : (node_logits.map argmaxList).getD s 0 < NR := by
      rw [hrowval, ← hlen]
      exact argmaxList_lt _ hne
    rw [if_pos hbound]

/-- Witness for C1 at a concrete input. -/
theorem get_segmentation_map_eq_gather_witness :
    get_segmentation_map [[(1 : ℚ), 2], [3, 1]] [0, 1, 1, 0] 2 =
      [0, 1, 1, 0].map (fun s => (([[(1 : ℚ), 2], [3, 1]]).map argmaxList).getD s 0) :=
  get_segmentation_map_eq_gather [[(1 : ℚ), 2], [3, 1]] [0, 1, 1, 0] 2
    (by decide) (by decide) (by decide)

/-- C10: every pixel whose superpixel id is not a valid node index gets
class `0`, and (for at least one class) every output value is `< NR`. -/
theorem get_segmentation_map_invalid_and_range (node_logits : List (List ℚ))
    (superpixels : List Nat) (NR : Nat) (hNR : 0 < NR) :
    (∀ j, j < superpixels.length → node_logits.length ≤ superpixels.getD j 0 →
      (get_segmentation_map node_logits superpixels NR).getD j 0 = 0) ∧
    (∀ v ∈ get_segmentation_map node_logits superpixels NR, v < NR) := by
  constructor
  · intro j hj hinv
    rw [get_segmentation_map_getD node_logits superpixels NR j hj]
    have : ¬ superpixels.getD j 0 < (node_logits.map argmaxList).length := by
      simp only [List.length_map]
      omega
    simp only []
    rw [dif_neg this]
  · intro v hv
    have hlen : (get_segmentation_map node_logits superpixels NR).length
        = superpixels.length := by
      simp [get_segmentation_map]
    rcases List.mem_iff_getElem.mp hv with ⟨j, hjl, hval⟩
    have hj : j < superpixels.length := by rw [← hlen]; exact hjl
    rw [← List.getD_eq_getElem _ 0 hjl] at hval
    rw [get_segmentation_map_getD node_logits superpixels NR j hj] at hval
    simp only [] at hval
    by_cases hs : superpixels.getD j 0 < (node_logits.map argmaxList).length
    · rw [dif_pos hs] at hval
      by_cases hb : (node_logits.map argmaxList).getD (superpixels.getD j 0) 0 < NR
      · rw [if_pos hb] at hval; omega
      · rw [if_neg hb] at hval; omega
    · rw [dif_neg hs] at hval; omega

/-- Witness for C10 at a concrete input (superpixel id 5 is invalid). -/
theorem get_segmentation_map_invalid_and_range_witness :
    ((∀ j, j < ([0, 5, 1] : List Nat).length → ([[(1 : ℚ), 2], [3, 1]] : List (List ℚ)).length ≤ ([0, 5, 1] : List Nat).getD j 0 →
      (get_segmentation_map [[(1 : ℚ), 2], [3, 1]] [0, 5, 1] 2).getD j 0 = 0) ∧
    (∀ v ∈ get_segmentation_map [[(1 : ℚ), 2], [3, 1]] [0, 5, 1] 2, v < 2)) :=
  get_segmentation_map_invalid_and_range [[(1 : ℚ), 2], [3, 1]] [0, 5, 1] 2 (by decide)

/-- Behaviour of `argmaxAux`: either the running best survives and bounds
every remaining element, or the result points at a remaining element that
beats the running best and bounds all remaining elements. -/
lemma argmaxAux_spec {α : Type u} [LinearOrder α] :
    ∀ (xs : List α) (i : Nat) (bv : α) (best : Nat),
      (argmaxAux xs i bv best = best ∧ ∀ x ∈ xs, x ≤ bv) ∨
      (∃ k, ∃ hk : k < xs.length, argmaxAux xs i bv best = i + k ∧
        bv < xs.get ⟨k, hk⟩ ∧ ∀ x ∈ xs, x ≤ xs.get ⟨k, hk⟩) := by
  intro xs
  induction xs with
  | nil => intro i bv best; exact Or.inl ⟨rfl, by simp⟩
  | cons x xs ih =>
    intro i bv best
    simp only [argmaxAux]
    by_cases hc : bv < x
    · rw [if_pos hc]
      rcases ih (i + 1) x i with ⟨heq, hall⟩ | ⟨k, hk, heq, hgt, hall⟩
      · refine Or.inr ⟨0, by simp, by simpa using heq, by simpa using hc, ?_⟩
        intro y hy
        rcases List.mem_cons.mp hy with hy | hy
        · exact le_of_eq (by simpa using hy)
        · exact hall y hy
      · refine Or.inr ⟨k + 1, by simpa using Nat.succ_lt_succ hk, by omega, ?_, ?_⟩
        · exact lt_trans hc (by simpa using hgt)
        · intro y hy
          rcases List.mem_cons.mp hy with hy | hy
          · subst hy; exact le_of_lt (by simpa using hgt)
          · simpa using hall y hy
    · rw [if_neg hc]
      rcases ih (i + 1) bv best with ⟨heq, hall⟩ | ⟨k, hk, heq, hgt, hall⟩
      · refine Or.inl ⟨heq, ?_⟩
        intro y hy
        rcases List.mem_cons.mp hy with hy | hy
        · subst hy; exact le_of_not_lt hc
        · exact hall y hy
      · refine Or.inr ⟨k + 1, by simpa using Nat.succ_lt_succ hk, by omega, by simpa using hgt, ?_⟩
        intro y hy
        rcases List.mem_cons.mp hy with hy | hy
        · subst hy
          exact le_trans (le_of_not_lt hc) (le_of_lt (by simpa using hgt))
        · simpa using hall y hy

/-- The index `argmaxList` returns points at a maximal element. -/
lemma argmaxList_isMax {α : Type u} [LinearOrder α] (l : List α) (h : l ≠ []) :
    ∃ hlt : argmaxList l < l.length,
      ∀ x ∈ l, x ≤ l.get ⟨argmaxList l, hlt⟩ := by
  cases l with
  | nil => exact absurd rfl h
  | cons x xs =>
    have hlt : argmaxList (x :: xs) < (x :: xs).length := argmaxList_lt _ h
    refine ⟨hlt, ?_⟩
    have hspec := argmaxAux_spec xs 1 x 0
    rcases hspec with ⟨heq, hall⟩ | ⟨k, hk, heq, hgt, hall⟩
    · have hres : argmaxList (x :: xs) = 0 := heq
      intro y hy
      rcases List.mem_cons.mp hy with hy | hy
      · subst hy
        simp [hres]
      · have := hall y hy
        simpa [hres] using this
    · have hres : argmaxList (x :: xs) = 1 + k := heq
      intro y hy
      have hget : (x :: xs).get ⟨argmaxList (x :: xs), hlt⟩ = xs.get ⟨k, hk⟩ := by
        have : argmaxList (x :: xs) = k + 1 := by omega
        simp [this]
      rw [hget]
      rcases List.mem_cons.mp hy with hy | hy
      · subst hy; exact le_of_lt hgt
      · exact hall y hy

/-- Since `argmaxAux` only compares elements, mapping a strictly monotone
function over the list (and the running best) leaves the result index
unchanged. -/
lemma argmaxAux_map {α : Type u} {β : Type v} [LinearOrder α] [LinearOrder β]
    (f : α → β) (hf : StrictMono f) :
    ∀ (xs : List α) (i : Nat) (bv : α) (best : Nat),
      argmaxAux (xs.map f) i (f bv) best = argmaxAux xs i bv best := by
  intro xs
  induction xs with
  | nil => intro i bv best; rfl
  | cons x xs ih =>
    intro i bv best
    simp only [List.map_cons, argmaxAux, hf.lt_iff_lt]
    by_cases hc : bv < x
    · rw [if_pos hc, if_pos hc, ih]
    · rw [if_neg hc, if_neg hc, ih]

lemma argmaxList_map {α : Type u} {β : Type v} [LinearOrder α] [LinearOrder β]
    (f : α → β) (hf : StrictMono f) (l : List α) :
    argmaxList (l.map f) = argmaxList l := by
  cases l with
  | nil => rfl
  | cons x xs => exact argmaxAux_map f hf xs 1 x 0

/-- Model of `logits.sigmoid()` from the source: the logistic function applied
entrywise. -/
noncomputable def sigmoid (x : ℝ) : ℝ := 1 / (1 + Real.exp (-x))

lemma sigmoid_strictMono : StrictMono sigmoid := by
  intro a b hab
  have hb : (0 : ℝ) < 1 + Real.exp (-b) := by positivity
  have hexp : Real.exp (-b) < Real.exp (-a) := Real.exp_lt_exp.mpr (by linarith)
  have : 1 + Real.exp (-b) < 1 + Real.exp (-a) := by linarith
  exact one_div_lt_one_div_of_lt hb this

/-- C6: in argmax mode the produced hard label is the index of the class
with the highest soft (sigmoid) score, and since sigmoid is strictly
monotone this index equals the argmax of the raw logits. -/
theorem argmax_sigmoid_eq_argmax_logits (logits : List ℝ) (hne : logits ≠ []) :
    argmaxList (logits.map sigmoid) = argmaxList logits ∧
    ∃ hlt : argmaxList (logits.map sigmoid) < logits.length,
      ∀ j, ∀ hj : j < logits.length,
        sigmoid (logits.get ⟨j, hj⟩) ≤ sigmoid (logits.get ⟨argmaxList (logits.map sigmoid), hlt⟩) := by
  have hmap : argmaxList (logits.map sigmoid) = argmaxList logits :=
    argmaxList_map sigmoid sigmoid_strictMono logits
  refine ⟨hmap, ?_⟩
  rcases argmaxList_isMax logits hne with ⟨hlt, hmax⟩
  rw [hmap]
  refine ⟨hlt, ?_⟩
  intro j hj
  exact sigmoid_strictMono.monotone (hmax _ (List.get_mem logits j hj))

/-- Witness for C6 at the concrete logits `[0, 1]`. -/
theorem argmax_sigmoid_eq_argmax_logits_witness :
    argmaxList (([(0 : ℝ), 1]).map sigmoid) = argmaxList [(0 : ℝ), 1] ∧
    ∃ hlt : argmaxList (([(0 : ℝ), 1]).map sigmoid) < ([(0 : ℝ), 1]).length,
      ∀ j, ∀ hj : j < ([(0 : ℝ), 1]).length,
        sigmoid (([(0 : ℝ), 1]).get ⟨j, hj⟩) ≤
          sigmoid (([(0 : ℝ), 1]).get ⟨argmaxList (([(0 : ℝ), 1]).map sigmoid), hlt⟩) :=
  argmax_sigmoid_eq_argmax_logits [(0 : ℝ), 1] (by simp)

/-- Attribute state of a `PatchBasedInference` object; `nr_classes` is an
`Option` because Python attributes exist only once assigned (reading an
unassigned one raises `AttributeError`). -/
structure PatchBasedInference where
  patch_size : Nat × Nat
  overlap : Nat × Nat
  batch_size : Nat
  num_workers : Nat
  nr_classes : Option Nat

set_option linter.unusedVariables false in
/-- Model of `PatchBasedInference.__init__` from the source: it stores
`patch_size`, `batch_size`, `overlap` and `num_workers`; the `nr_classes`
argument is accepted but never assigned to `self`, so that attribute stays
absent. -/
def PatchBasedInference.init (patch_size overlap : Nat × Nat)
    (batch_size nr_classes num_workers : Nat) : PatchBasedInference :=
  { patch_size := patch_size, overlap := overlap, batch_size := batch_size,
    num_workers := num_workers, nr_classes := none }

/-- Python exceptions raised by the prediction entry points. -/
inductive PredictError where
  | notImplemented : String → PredictError
  | attributeError : String → PredictError
deriving DecidableEq

/-- The opening dispatch of `PatchBasedInference._predict`: `per_class`
reads `self.nr_classes` for the number of output channels, `argmax` uses
one channel, anything else raises `NotImplementedError`. -/
def PatchBasedInference.outputChannels (self : PatchBasedInference)
    (operation : String) : Except PredictError Nat :=
  if operation = "per_class" then
    match self.nr_classes with
    | some n => Except.ok n
    | none => Except.error (PredictError.attributeError ("nr_classes"))
  else if operation = "argmax" then Except.ok 1
  else Except.error (PredictError.notImplemented operation)

/-- The operation dispatch of `ImageInferenceModel.predict`: `per_class`
keeps the soft (sigmoid) scores, `argmax` takes the channel argmax,
anything else raises `NotImplementedError`. -/
def ImageInferenceModel.predictOp (operation : String) (soft_predictions : List ℚ) :
    Except PredictError (List ℚ ⊕ Nat) :=
  if operation = "per_class" then Except.ok (Sum.inl soft_predictions)
  else if operation = "argmax" then Except.ok (Sum.inr (argmaxList soft_predictions))
  else Except.error (PredictError.notImplemented operation)

/-- The check `assert operation == "argmax"` in `GraphNodeBasedInference.predict`. -/
def GraphNodeBasedInference.assertOperation (operation : String) : Bool :=
  operation == "argmax"

/-- C2 (code bug): for every constructor argument list, calling the
`per_class` path after `__init__` reads the never-assigned attribute
`self.nr_classes` and raises `AttributeError` instead of producing a
per-class prediction. -/
theorem per_class_predict_attribute_error (patch_size overlap : Nat × Nat)
    (batch_size nr_classes num_workers : Nat) :
    (PatchBasedInference.init patch_size overlap batch_size nr_classes
        num_workers).outputChannels ("per_class")
      = Except.error (PredictError.attributeError ("nr_classes")) := rfl

/-- C8: `PatchBasedInference._predict` and `ImageInferenceModel.predict`
raise `NotImplementedError` exactly on operations other than `per_class`
and `argmax`, and `GraphNodeBasedInference.predict`'s assertion holds
exactly for `argmax`. -/
theorem operation_validated (self : PatchBasedInference) (op : String) :
    (self.outputChannels op = Except.error (PredictError.notImplemented op) ↔
      (op ≠ "per_class" ∧ op ≠ "argmax")) ∧
    (∀ soft : List ℚ,
      ImageInferenceModel.predictOp op soft
          = Except.error (PredictError.notImplemented op) ↔
        (op ≠ "per_class" ∧ op ≠ "argmax")) ∧
    (GraphNodeBasedInference.assertOperation op = true ↔ op = "argmax") := by
  refine ⟨?_, ?_, ?_⟩
  · by_cases h1 : op = "per_class"
    · subst h1
      cases hnc : self.nr_classes with
      | none => simp [PatchBasedInference.outputChannels, hnc]
      | some n => simp [PatchBasedInference.outputChannels, hnc]
    · by_cases h2 : op = "argmax"
      · subst h2
        simp [PatchBasedInference.outputChannels]
      · simp [PatchBasedInference.outputChannels, h1, h2]
  · intro soft
    by_cases h1 : op = "per_class"
    · subst h1; simp [ImageInferenceModel.predictOp]
    · by_cases h2 : op = "argmax"
      · subst h2; simp [ImageInferenceModel.predictOp]
      · simp [ImageInferenceModel.predictOp, h1, h2]
  · simp [GraphNodeBasedInference.assertOperation]

/-- The `per_class` output tensor built for one patch in
`PatchBasedInference._predict`: the per-class soft score vector is
unsqueezed twice and repeated over the full patch extent. -/
def perClassOutput (soft_predictions : List ℚ) (ph pw : Nat) : List (List (List ℚ)) :=
  soft_predictions.map (fun s => List.replicate ph (List.replicate pw s))

/-- The `argmax` output tensor built for one patch in
`PatchBasedInference._predict`: the scalar hard label is unsqueezed twice
and repeated over the full patch extent. -/
def argmaxOutput (soft_predictions : List ℚ) (ph pw : Nat) : List (List Nat) :=
  List.replicate ph (List.replicate pw (argmaxList soft_predictions))

lemma getD_replicate {α : Type u} (n i : Nat) (a d : α) (h : i < n) :
    (List.replicate n a).getD i d = a := by
  induction n generalizing i with
  | zero => exact absurd h (Nat.not_lt_zero i)
  | succ n ih =>
    cases i with
    | zero => rfl
    | succ i => exact ih i (Nat.lt_of_succ_lt_succ h)

/-- C9: within one patch the tensor handed to the aggregator is spatially
constant: every in-patch pixel of channel `c` of the `per_class` output
carries the channel's single soft score, and every in-patch pixel of the
`argmax` output carries the single hard label. -/
theorem patch_output_spatially_constant (soft_predictions : List ℚ)
    (ph pw c i j : Nat) (hc : c < soft_predictions.length) (hi : i < ph) (hj : j < pw) :
    (((perClassOutput soft_predictions ph pw).getD c []).getD i []).getD j 0
        = soft_predictions.getD c 0 ∧
    ((argmaxOutput soft_predictions ph pw).getD i []).getD j 0
        = argmaxList soft_predictions := by
  constructor
  · rw [show (perClassOutput soft_predictions ph pw).getD c []
        = List.replicate ph (List.replicate pw (soft_predictions.getD c 0)) from ?_]
    · rw [getD_replicate ph i _ [] hi, getD_replicate pw j _ 0 hj]
    · unfold perClassOutput
      rw [getD_map_of_lt _ _ c hc [] 0]
  · unfold argmaxOutput
    rw [getD_replicate ph i _ [] hi, getD_replicate pw j _ 0 hj]

/-- Witness for C9 at a concrete patch. -/
theorem patch_output_spatially_constant_witness :
    ((((perClassOutput [(1 : ℚ) / 2, 2] 2 3).getD 1 []).getD 0 []).getD 2 0
        = ([(1 : ℚ) / 2, 2]).getD 1 0 ∧
    ((argmaxOutput [(1 : ℚ) / 2, 2] 2 3).getD 0 []).getD 2 0
        = argmaxList [(1 : ℚ) / 2, 2]) :=
  patch_output_spatially_constant [(1 : ℚ) / 2, 2] 2 3 1 0 2
    (by decide) (by decide) (by decide)

/-- Modelled from the spec: one patch prediction handed to the grid
aggregator (the torchio `GridAggregator` the source delegates to is not
part of this repository): a placement origin `loc`, a spatial `size`, and
the predicted `values` over the patch extent, for one channel. -/
structure Patch where
  loc : Nat × Nat
  size : Nat × Nat
  values : List (List ℚ)
deriving DecidableEq

/-- Whether pixel `p` lies inside the patch's placement rectangle. -/
def Patch.covers (patch : Patch) (p : Nat × Nat) : Bool :=
  decide (patch.loc.1 ≤ p.1) && decide (p.1 < patch.loc.1 + patch.size.1) &&
  decide (patch.loc.2 ≤ p.2) && decide (p.2 < patch.loc.2 + patch.size.2)

/-- The patch's contribution at pixel `p`: its predicted value at the
patch-relative offset inside the rectangle, `0` outside. -/
def Patch.contributionAt (patch : Patch) (p : Nat × Nat) : ℚ :=
  if patch.covers p then
    (patch.values.getD (p.1 - patch.loc.1) []).getD (p.2 - patch.loc.2) 0
  else 0

/-- Modelled from the spec: "for each patch prediction, add its
contribution at its placement location and increment the count" — one
step of the aggregation, updating the accumulator and count maps. -/
def addPatch (acc : ((Nat × Nat) → ℚ) × ((Nat × Nat) → Nat)) (patch : Patch) :
    ((Nat × Nat) → ℚ) × ((Nat × Nat) → Nat) :=
  (fun p => acc.1 p + patch.contributionAt p,
   fun p => acc.2 p + if patch.covers p then 1 else 0)

/-- Modelled from the spec: the grid aggregator in "average" overlap mode
— fold all patch predictions into the accumulator and count maps starting
from zero, then divide per pixel the accumulated sum by the count. -/
def aggregate (patches : List Patch) : (Nat × Nat) → ℚ :=
  fun p =>
    let st := patches.foldl addPatch (fun _ => 0, fun _ => 0)
    st.1 p / (st.2 p : ℚ)

/-- Number of patches covering pixel `p`. -/
def countAt (patches : List Patch) (p : Nat × Nat) : Nat :=
  (patches.filter (fun q => q.covers p)).length

/-- Sum of all patches' contributions at pixel `p`. -/
def accumAt (patches : List Patch) (p : Nat × Nat) : ℚ :=
  (patches.map (fun q => q.contributionAt p)).sum

lemma foldl_addPatch (patches : List Patch) (s0 : (Nat × Nat) → ℚ)
    (c0 : (Nat × Nat) → Nat) (p : Nat × Nat) :
    ((patches.foldl addPatch (s0, c0)).1 p = s0 p + accumAt patches p) ∧
    ((patches.foldl addPatch (s0, c0)).2 p = c0 p + countAt patches p) := by
  induction patches generalizing s0 c0 with
  | nil => simp [accumAt, countAt]
  | cons q qs ih =>
    simp only [List.foldl_cons]
    have h := ih (fun r => s0 r + q.contributionAt r)
      (fun r => c0 r + if q.covers r then 1 else 0)
    rw [show addPatch (s0, c0) q = (fun r => s0 r + q.contributionAt r,
      fun r => c0 r + if q.covers r then 1 else 0) from rfl]
    constructor
    · rw [h.1]
      simp only [accumAt, List.map_cons, List.sum_cons]
      ring
    · rw [h.2]
      simp only [countAt, List.filter_cons]
      by_cases hc : q.covers p
      · simp [hc]
        omega
      · simp [hc]

lemma accumAt_eq_filter_sum (patches : List Patch) (p : Nat × Nat) :
    accumAt patches p
      = ((patches.filter (fun q => q.covers p)).map
          (fun q => q.contributionAt p)).sum := by
  induction patches with
  | nil => rfl
  | cons q qs ih =>
    simp only [accumAt, List.map_cons, List.sum_cons, List.filter_cons] at *
    by_cases hc : q.covers p
    · simp [hc, ih]
    · have h0 : q.contributionAt p = 0 := by
        unfold Patch.contributionAt
        rw [if_neg (by simpa using hc)]
      simp [hc, ih, h0]

/-- C3: at every pixel covered by at least one patch, the aggregated
output equals the sum of the covering patches' contributions divided by
the number of covering patches. -/
theorem aggregate_eq_sum_div_count (patches : List Patch) (p : Nat × Nat)
    (_hcov : 1 ≤ countAt patches p) :
    aggregate patches p
      = ((patches.filter (fun q => q.covers p)).map
          (fun q => q.contributionAt p)).sum / (countAt patches p : ℚ) := by
  unfold aggregate
  simp only []
  rw [(foldl_addPatch patches (fun _ => 0) (fun _ => 0) p).1,
      (foldl_addPatch patches (fun _ => 0) (fun _ => 0) p).2]
  rw [accumAt_eq_filter_sum]
  simp

/-- Witness for C3 on two overlapping unit patches at pixel (0, 0). -/
theorem aggregate_eq_sum_div_count_witness :
    aggregate [⟨(0, 0), (1, 1), [[2]]⟩, ⟨(0, 0), (1, 1), [[4]]⟩] (0, 0)
      = ((([⟨(0, 0), (1, 1), [[2]]⟩, ⟨(0, 0), (1, 1), [[4]]⟩] : List Patch).filter
            (fun q => q.covers (0, 0))).map
          (fun q => q.contributionAt (0, 0))).sum
        / (countAt [⟨(0, 0), (1, 1), [[2]]⟩, ⟨(0, 0), (1, 1), [[4]]⟩] (0, 0) : ℚ) :=
  aggregate_eq_sum_div_count _ _ (by decide)

/-- C4: the aggregated output map is invariant under the order in which
the patch predictions are added. -/
theorem aggregate_perm_invariant (l₁ l₂ : List Patch) (hperm : l₁.Perm l₂) :
    aggregate l₁ = aggregate l₂ := by
  funext p
  unfold aggregate
  simp only []
  rw [(foldl_addPatch l₁ (fun _ => 0) (fun _ => 0) p).1,
      (foldl_addPatch l₁ (fun _ => 0) (fun _ => 0) p).2,
      (foldl_addPatch l₂ (fun _ => 0) (fun _ => 0) p).1,
      (foldl_addPatch l₂ (fun _ => 0) (fun _ => 0) p).2]
  have hsum : accumAt l₁ p = accumAt l₂ p :=
    List.Perm.sum_eq (hperm.map (fun q => q.contributionAt p))
  have hcount : countAt l₁ p = countAt l₂ p :=
    List.Perm.length_eq (hperm.filter (fun q => q.covers p))
  rw [hsum, hcount]

/-- Witness for C4: swapping two concrete patches leaves the output map
unchanged. -/
theorem aggregate_perm_invariant_witness :
    aggregate ([⟨(0, 0), (1, 2), [[1, 2]]⟩, ⟨(0, 1), (1, 2), [[3, 4]]⟩] : List Patch)
      = aggregate ([⟨(0, 1), (1, 2), [[3, 4]]⟩, ⟨(0, 0), (1, 2), [[1, 2]]⟩] : List Patch) :=
  aggregate_perm_invariant _ _
    (List.Perm.swap (⟨(0, 1), (1, 2), [[3, 4]]⟩ : Patch) (⟨(0, 0), (1, 2), [[1, 2]]⟩ : Patch) [])

/-- C7: when a pixel is covered by exactly one patch, the aggregated
output there is exactly that patch's contribution — dividing by a count
of 1 is the identity. -/
theorem aggregate_count_one (patches : List Patch) (q : Patch) (p : Nat × Nat)
    (hcount : countAt patches p = 1) (hq : q ∈ patches) (hc : q.covers p = true) :
    aggregate patches p = q.contributionAt p := by
  unfold aggregate
  simp only []
  rw [(foldl_addPatch patches (fun _ => 0) (fun _ => 0) p).1,
      (foldl_addPatch patches (fun _ => 0) (fun _ => 0) p).2]
  rw [accumAt_eq_filter_sum, hcount]
  rcases List.length_eq_one.mp hcount with ⟨a, ha⟩
  have hqf : q ∈ patches.filter (fun r => r.covers p) :=
    List.mem_filter.mpr ⟨hq, hc⟩
  rw [ha] at hqf
  have hqa : q = a := by simpa using hqf
  rw [ha, hqa]
  simp

/-- Witness for C7 on a single covering patch. -/
theorem aggregate_count_one_witness :
    aggregate [⟨(0, 0), (1, 1), [[5]]⟩] (0, 0)
      = Patch.contributionAt ⟨(0, 0), (1, 1), [[5]]⟩ (0, 0) :=
  aggregate_count_one _ _ _ (by decide) (by decide) (by decide)

/-- Modelled from the spec: the 1-D origin coordinates of the grid tiling
(the torchio `GridSampler` the source delegates to is not part of this
repository) — "generate patch origin coordinates covering the full image
with the last row/column clamped to the image boundary so all patches
stay in-bounds": origins at multiples of the step `h - o`, each clamped
to `H - h`. -/
def gridStarts (H h o : Nat) : List Nat :=
  (List.range ((H - h + (h - o) - 1) / (h - o) + 1)).map
    (fun i => min (i * (h - o)) (H - h))

/-- Modelled from the spec: the 2-D grid of patch origins over an
`H × W` image with patch size `(h, w)` and overlap `(oy, ox)`. -/
def gridPatches (H W h w oy ox : Nat) : List (Nat × Nat) :=
  (gridStarts H h oy).flatMap (fun y => (gridStarts W w ox).map (fun x => (y, x)))

lemma gridStarts_inbounds (H h o : Nat) (hh : h ≤ H) :
    ∀ s ∈ gridStarts H h o, s + h ≤ H := by
  intro s hs
  unfold gridStarts at hs
  simp only [List.mem_map, List.mem_range] at hs
  rcases hs with ⟨i, _, rfl⟩
  have := Nat.min_le_right (i * (h - o)) (H - h)
  omega

lemma gridStarts_cover (H h o p : Nat) (hh : h ≤ H) (ho : o < h) (hp : p < H) :
    ∃ s ∈ gridStarts H h o, s ≤ p ∧ p < s + h := by
  by_cases hcase : p < H - h
  · refine ⟨min (p / (h - o) * (h - o)) (H - h), ?_, ?_, ?_⟩
    · unfold gridStarts
      simp only [List.mem_map, List.mem_range]
      refine ⟨p / (h - o), ?_, rfl⟩
      have h1 : p ≤ H - h + (h - o) - 1 := by omega
      have h2 : p / (h - o) ≤ (H - h + (h - o) - 1) / (h - o) :=
        Nat.div_le_div_right h1
      omega
    · have h1 : p / (h - o) * (h - o) ≤ p := Nat.div_mul_le_self p (h - o)
      omega
    · have h1 : p / (h - o) * (h - o) ≤ p := Nat.div_mul_le_self p (h - o)
      have h2 := Nat.div_add_mod' p (h - o)
      have h3 := Nat.mod_lt p (show 0 < h - o by omega)
      have hmin : min (p / (h - o) * (h - o)) (H - h) = p / (h - o) * (h - o) :=
        Nat.min_eq_left (by omega)
      rw [hmin]
      omega
  · have h2 := Nat.div_add_mod' (H - h + (h - o) - 1) (h - o)
    have h3 := Nat.mod_lt (H - h + (h - o) - 1) (show 0 < h - o by omega)
    have hmin : min ((H - h + (h - o) - 1) / (h - o) * (h - o)) (H - h) = H - h :=
      Nat.min_eq_right (by omega)
    refine ⟨min ((H - h + (h - o) - 1) / (h - o) * (h - o)) (H - h), ?_, ?_, ?_⟩
    · unfold gridStarts
      simp only [List.mem_map, List.mem_range]
      exact ⟨(H - h + (h - o) - 1) / (h - o), by omega, rfl⟩
    · rw [hmin]; omega
    · rw [hmin]; omega

/-- C5: with patch size fitting the image and overlap smaller than the
patch, every generated patch origin keeps the patch inside the image
bounds, and every pixel is covered by at least one generated patch. -/
theorem gridPatches_inbounds_and_cover (H W h w oy ox : Nat)
    (hh : h ≤ H) (hw : w ≤ W) (hoy : oy < h) (hox : ox < w) :
    (∀ q ∈ gridPatches H W h w oy ox, q.1 + h ≤ H ∧ q.2 + w ≤ W) ∧
    (∀ py, py < H → ∀ px, px < W → ∃ q ∈ gridPatches H W h w oy ox,
      q.1 ≤ py ∧ py < q.1 + h ∧ q.2 ≤ px ∧ px < q.2 + w) := by
  constructor
  · intro q hq
    unfold gridPatches at hq
    simp only [List.mem_flatMap, List.mem_map] at hq
    rcases hq with ⟨y, hy, x, hx, rfl⟩
    exact ⟨gridStarts_inbounds H h oy hh y hy, gridStarts_inbounds W w ox hw x hx⟩
  · intro py hpy px hpx
    rcases gridStarts_cover H h oy py hh hoy hpy with ⟨y, hy, hy1, hy2⟩
    rcases gridStarts_cover W w ox px hw hox hpx with ⟨x, hx, hx1, hx2⟩
    refine ⟨(y, x), ?_, hy1, hy2, hx1, hx2⟩
    unfold gridPatches
    simp only [List.mem_flatMap, List.mem_map]
    exact ⟨y, hy, x, hx, rfl⟩

/-- Witness for C5 on a 5×5 image, 2×2 patches, overlap 1. -/
theorem gridPatches_inbounds_and_cover_witness :
    (∀ q ∈ gridPatches 5 5 2 2 1 1, q.1 + 2 ≤ 5 ∧ q.2 + 2 ≤ 5) ∧
    (∀ py, py < 5 → ∀ px, px < 5 → ∃ q ∈ gridPatches 5 5 2 2 1 1,
      q.1 ≤ py ∧ py < q.1 + 2 ∧ q.2 ≤ px ∧ px < q.2 + 2) :=
  gridPatches_inbounds_and_cover 5 5 2 2 1 1
    (by decide) (by decide) (by decide) (by decide)
